import Mathlib

/-!
Verification development for the `python_shorts` repository.

The repository consists of instructional notebooks.  Two of them contain
executable Python:

* `passing_data_around.ipynb` demonstrates extended iterable unpacking
  (PEP 3132) on training-batch tuples;
* the caching notebook demonstrates `functools.lru_cache` on a class method
  (`ExtendedFolder.get_img_dims`, in three variants) and on a matrix function
  (`invert_and_multiply`).

This file shallowly embeds the Python snippets.  Python tuples, generators and
other finite iterables are embedded as Lean lists; Python `None` is
`Option.none`; numeric scalars from the notebooks are embedded as `ℚ` or `ℤ`;
`functools.lru_cache`, whose source is not part of the repository, is modelled
from the specification as a memo table with hit/miss counters and a
cache-clear operation.
-/

namespace PythonShorts

/-! ## Extended iterable unpacking (PEP 3132)

`a₁, …, a_k, *star, b₁, …, b_m = s` in Python requires the iterable `s` to
yield at least `k + m` items; it binds the first `k` items to the leading
targets, the last `m` items to the trailing targets, and the (possibly empty)
middle of the sequence to `star`, always as a list.  We embed the iterable as
the Lean list of the items it yields. -/

/-- Semantics of a starred assignment with `k` targets before the star and
`m` targets after it: `none` models the `ValueError` raised when the sequence
is too short, `some (before, star, after)` the successful binding. -/
def starUnpack (k m : Nat) {α : Type} (s : List α) :
    Option (List α × List α × List α) :=
  if s.length < k + m then Option.none
  else some (s.take k, (s.drop k).take (s.length - k - m), s.drop (s.length - m))

/-- A Python exception, as far as the notebooks raise one. -/
inductive PyError : Type
  | valueError (msg : String)
deriving DecidableEq

/-- Unpacking a tuple (embedded as the list of its components) into exactly two
targets, `x, y = t`: succeeds only for pairs, otherwise raises the built-in
`ValueError` with CPython's message. -/
def unpack2 {α : Type} (t : List α) : Except PyError (α × α) :=
  match t with
  | [a, b] => Except.ok (a, b)
  | [] => Except.error (PyError.valueError "not enough values to unpack (expected 2, got 0)")
  | [_] => Except.error (PyError.valueError "not enough values to unpack (expected 2, got 1)")
  | _ => Except.error (PyError.valueError "too many values to unpack (expected 2)")

/-- Unpacking `*x, y = t`: needs at least one item; binds `y` to the last item
and `x` to the list of all items before it. -/
def unpackStarLast {α : Type} (t : List α) : Except PyError (List α × α) :=
  match t with
  | [] => Except.error (PyError.valueError "not enough values to unpack (expected at least 1, got 0)")
  | x :: xs => Except.ok ((x :: xs).dropLast, xs.getLastD x)

/-- The argument list received by a model called as `em(*x, y)`:
the splatted list followed by the final positional argument. -/
def callWithStar {α : Type} (x : List α) (y : α) : List α := x ++ [y]

/-- The argument list received by a model called as `em(cont, idx, y)`. -/
def callDirect {α : Type} (cont idx y : α) : List α := [cont, idx, y]

/-! ### The notebook's training loops

`Model.forward` / `EmbeddingModel.forward` only print their arguments, so the
observable behaviour of one loop iteration is the ordered argument list passed
to the model.  A loop either raises the first `ValueError` produced while
unpacking a batch, or returns the per-iteration argument lists. -/

/-- `for x, y in batches: m(x, y)` — each batch is unpacked into exactly two
targets and the model receives the two values. -/
def forLoop2 {α : Type} (batches : List (List α)) :
    Except PyError (List (List α)) :=
  match batches with
  | [] => Except.ok []
  | b :: rest =>
    match unpack2 b with
    | Except.error e => Except.error e
    | Except.ok (x, y) =>
      match forLoop2 rest with
      | Except.error e => Except.error e
      | Except.ok t => Except.ok ([x, y] :: t)

/-- `for *x, y in batches: em(*x, y)` — each batch is unpacked with a starred
target and the model receives the splatted arguments. -/
def forLoopStar {α : Type} (batches : List (List α)) :
    Except PyError (List (List α)) :=
  match batches with
  | [] => Except.ok []
  | b :: rest =>
    match unpackStarLast b with
    | Except.error e => Except.error e
    | Except.ok (x, y) =>
      match forLoopStar rest with
      | Except.error e => Except.error e
      | Except.ok t => Except.ok (callWithStar x y :: t)

/-- `zip(xs, ys)`: the list of 2-tuples (each embedded as a list). -/
def zipPairs {α : Type} (a b : List α) : List (List α) :=
  List.zipWith (fun x y => [x, y]) a b

/-- `zip(xs, ys, zs)`: the list of 3-tuples (each embedded as a list). -/
def zipTriples {α : Type} (a b c : List α) : List (List α) :=
  List.zipWith (fun x yz => x :: yz) a (zipPairs b c)

/-- `xs = np.array([[1.7], [0.3]])`, embedded row by row over `ℚ`. -/
def xsArr : List (List ℚ) := [[17/10], [3/10]]

/-- `ys = np.array([[2], [4]])`. -/
def ysArr : List (List ℚ) := [[2], [4]]

/-- `cont_values = np.array([[1.7], [0.3]])`. -/
def cont_values : List (List ℚ) := [[17/10], [3/10]]

/-- `embedding_idxs = np.array([[1], [3]])`. -/
def embedding_idxs : List (List ℚ) := [[1], [3]]

/-- `train_set = zip(xs, ys)` from the first cell. -/
def train_set_pairs : List (List (List ℚ)) := zipPairs xsArr ysArr

/-- `train_set = zip(cont_values, embedding_idxs, ys)` from the failing cell
(and, re-created, from the starred-loop cell). -/
def train_set_triples : List (List (List ℚ)) :=
  zipTriples cont_values embedding_idxs ysArr

/-- A scalar appearing in the notebook's heterogeneous example lists
`['first', 0, 1, 2, 'last']`: a Python string or int. -/
inductive PyLit : Type
  | str (s : String)
  | int (n : ℤ)
deriving DecidableEq

/-- The list `['first', 0, 1, 2, 'last']` used in cells 5 and 6 (in cell 6 it
is fed through a generator expression, which yields the same items). -/
def firstMidLastItems : List PyLit :=
  [PyLit.str "first", PyLit.int 0, PyLit.int 1, PyLit.int 2, PyLit.str "last"]

/-- The inner list `[0, 1, 2, 3, 'last']` from cell 4. -/
def allButLastItems : List PyLit :=
  [PyLit.int 0, PyLit.int 1, PyLit.int 2, PyLit.int 3, PyLit.str "last"]

/-! ## `functools.lru_cache`, modelled from the spec

The decorator itself is standard-library code, not part of this repository.
Modelled from the spec: "a memoized function wrapper … that returns a cached
result for previously seen arguments and recomputes otherwise, exposing
hit/miss counters and a manual cache-clear operation".  The spec mentions no
size bound or eviction, so the memo table is unbounded; `cache_info` reports
the `maxsize=128` figure shown in the notebook's output.  The `runs` field is
instrumentation counting how often the wrapped computation actually executed
(in the notebook: how often the expensive matrix inversion or the
5-second directory scan happened). -/

/-- Lookup in an association list by key. -/
def lookupA {α β : Type} [DecidableEq α] : List (α × β) → α → Option β
  | [], _ => Option.none
  | (k, v) :: rest, x => if k = x then some v else lookupA rest x

/-- The mutable state behind one `lru_cache`-wrapped function. -/
structure LruState (α β : Type) : Type where
  cache : List (α × β)
  hits : Nat
  misses : Nat
  runs : Nat
deriving DecidableEq

/-- The state of a freshly decorated function: empty cache, zero counters. -/
def LruState.fresh {α β : Type} : LruState α β := ⟨[], 0, 0, 0⟩

/-- One call of the memoized function with argument `x`: on a previously seen
argument return the cached result and bump `hits`; otherwise run the wrapped
computation `f`, store its result and bump `misses`. -/
def lruCall {α β : Type} [DecidableEq α] (f : α → β) (s : LruState α β)
    (x : α) : β × LruState α β :=
  match lookupA s.cache x with
  | some v => (v, { s with hits := s.hits + 1 })
  | Option.none =>
    (f x, { cache := s.cache ++ [(x, f x)], hits := s.hits,
            misses := s.misses + 1, runs := s.runs + 1 })

/-- The state after a sequence of calls. -/
def runCalls {α β : Type} [DecidableEq α] (f : α → β) (s : LruState α β)
    (xs : List α) : LruState α β :=
  xs.foldl (fun st x => (lruCall f st x).2) s

/-- The record returned by `cache_info()`. -/
structure CacheInfo : Type where
  hits : Nat
  misses : Nat
  maxsize : Nat
  currsize : Nat
deriving DecidableEq

/-- The default `maxsize` of `lru_cache()`, as shown in the notebook output. -/
def lru_default_maxsize : Nat := 128

/-- `fn.cache_info()`: the hit/miss counters and the current cache size. -/
def cache_info {α β : Type} (s : LruState α β) : CacheInfo :=
  ⟨s.hits, s.misses, lru_default_maxsize, s.cache.length⟩

/-- `fn.cache_clear()`: empty the cache and reset the counters.  The `runs`
instrumentation is the total over the whole session, so it is kept. -/
def cache_clear {α β : Type} (s : LruState α β) : LruState α β :=
  { cache := [], hits := 0, misses := 0, runs := s.runs }

/-! ## The caching notebook -/

/-- The hard-coded image-dimension list returned by every version of
`ExtendedFolder.get_img_dims`. -/
def img_dims_value : List (Nat × Nat) := [(10, 20), (10, 20), (40, 40)]

/-- Uncached `ExtendedFolder.get_img_dims`: sleeps 5 seconds (modelled by
bumping a sleep counter) and returns the hard-coded list, every call. -/
def get_img_dims_uncached (sleeps : Nat) : List (Nat × Nat) × Nat :=
  (img_dims_value, sleeps + 1)

/-- The manually cached `ExtendedFolder`: `__init__` sets `self._img_dims = None`. -/
structure ExtendedFolderManual : Type where
  img_dims_field : Option (List (Nat × Nat))
deriving DecidableEq

/-- Python truthiness of `self._img_dims` as tested by `if not self._img_dims`:
`None` and the empty list are falsy, a non-empty list is truthy. -/
def pyFalsy (o : Option (List (Nat × Nat))) : Bool :=
  match o with
  | Option.none => true
  | some l => l.isEmpty

/-- Manually cached `get_img_dims`: when `self._img_dims` is falsy, sleep and
store the hard-coded list; then return whatever is stored.  Returns the value,
the updated instance, and whether the sleep (the expensive scan) ran. -/
def get_img_dims_manual (self : ExtendedFolderManual) :
    List (Nat × Nat) × ExtendedFolderManual × Bool :=
  let step : ExtendedFolderManual × Bool :=
    if pyFalsy self.img_dims_field then (⟨some img_dims_value⟩, true)
    else (self, false)
  ((step.1.img_dims_field).getD [], step.1, step.2)

/-- The freshly constructed manual-cache instance. -/
def ExtendedFolderManual.mk0 : ExtendedFolderManual := ⟨Option.none⟩

/-- Instance state and cumulative sleep count after `n` calls to the manually
cached `get_img_dims`, starting from a fresh instance. -/
def manualAfter : Nat → ExtendedFolderManual × Nat
  | 0 => (ExtendedFolderManual.mk0, 0)
  | n + 1 =>
    let (s, c) := manualAfter n
    let r := get_img_dims_manual s
    (r.2.1, c + (if r.2.2 then 1 else 0))

/-- The body of the `lru_cache`-decorated `get_img_dims`: it takes only
`self`, and the notebook uses a single instance, so the cache key is that one
instance, embedded as `Unit`. -/
def get_img_dims_lru_body : Unit → List (Nat × Nat) :=
  fun _ => img_dims_value

/-- `Analytics.get_dim_counts`: `Counter(self.dataset.get_img_dims())`.
A Python `Counter` built from a list is the multiset of its elements. -/
def get_dim_counts (dims : List (Nat × Nat)) : Multiset (Nat × Nat) :=
  (dims : Multiset (Nat × Nat))

/-! ### `invert_and_multiply` -/

/-- First-row Laplace expansion of the determinant of a rational matrix
(an executable stand-in for the linear algebra behind `np.linalg.inv`,
over `ℚ` instead of floating point). -/
def detRec : (n : Nat) → Matrix (Fin n) (Fin n) ℚ → ℚ
  | 0, _ => 1
  | n + 1, A =>
    ∑ j : Fin (n + 1),
      (-1 : ℚ) ^ (j : ℕ) * A 0 j *
        detRec n (fun a b => A a.succ (j.succAbove b))

/-- `np.linalg.inv`, modelled over `ℚ` by the adjugate formula
`inv(A)ᵢⱼ = (-1)^(i+j) det(minor ⱼᵢ) / det A`.  (For a singular matrix the
notebook's call would raise; over `ℚ`, `(0 : ℚ)⁻¹ = 0` makes this total,
which no claim depends on: the caller discards the value.) -/
def npLinalgInv : (n : Nat) → Matrix (Fin n) (Fin n) ℚ → Matrix (Fin n) (Fin n) ℚ
  | 0, A => A
  | n + 1, A =>
    fun i j =>
      (detRec (n + 1) A)⁻¹ *
        ((-1 : ℚ) ^ ((i : ℕ) + (j : ℕ)) *
          detRec n (fun a b => A (j.succAbove a) (i.succAbove b)))

/-- `arr_A = np.random.rand(1000, 1000)`: a 1000×1000 matrix.  The random
entries are embedded as an arbitrary rational matrix parameter. -/
def arrDim : Nat := 1000

/-- The body of `invert_and_multiply(coeff)`: the statement
`np.linalg.inv(arr_A) * coeff` computes the element-wise product and discards
it; the body has no `return` statement, so the function returns Python `None`
(= `Option.none`), never the matrix. -/
def invert_and_multiply (arr_A : Matrix (Fin arrDim) (Fin arrDim) ℚ)
    (coeff : ℤ) : Option (Matrix (Fin arrDim) (Fin arrDim) ℚ) :=
  let _product : Matrix (Fin arrDim) (Fin arrDim) ℚ :=
    fun i j => npLinalgInv arrDim arr_A i j * (coeff : ℚ)
  Option.none

/-- A concrete stand-in for the random `arr_A` (its entries are never
inspected by any claim). -/
def sampleArr : Matrix (Fin arrDim) (Fin arrDim) ℚ := fun _ _ => 1

/-! ## Lemmas about the memo-table model -/

/-- The argument keys currently cached. -/
def cacheKeys {α β : Type} (s : LruState α β) : List α :=
  s.cache.map Prod.fst

theorem lookupA_append {α β : Type} [DecidableEq α] (l₁ l₂ : List (α × β))
    (k : α) :
    lookupA (l₁ ++ l₂) k =
      match lookupA l₁ k with
      | some v => some v
      | Option.none => lookupA l₂ k := by
  induction l₁ with
  | nil => rfl
  | cons p rest ih =>
    obtain ⟨a, b⟩ := p
    by_cases h : a = k <;> simp [lookupA, h, ih]

theorem lookupA_eq_none_iff {α β : Type} [DecidableEq α]
    (l : List (α × β)) (k : α) :
    lookupA l k = Option.none ↔ k ∉ l.map Prod.fst := by
  induction l with
  | nil => simp [lookupA]
  | cons p rest ih =>
    obtain ⟨a, b⟩ := p
    by_cases h : a = k
    · simp [lookupA, h, ih]
    · simp [lookupA, h, ih]
      tauto

theorem mem_of_lookupA_eq_some {α β : Type} [DecidableEq α]
    {l : List (α × β)} {k : α} {v : β} (h : lookupA l k = some v) :
    k ∈ l.map Prod.fst := by
  by_contra hk
  rw [← lookupA_eq_none_iff (l := l) (k := k)] at hk
  rw [hk] at h
  exact Option.noConfusion h

/-- Invariant of the memo table along any sequence of calls: cached keys are
distinct, keys accumulate exactly the arguments seen, every cached value is
the wrapped function's value at its key, every call is a hit or a miss, and
misses and computation runs both grow exactly with the cache. -/
theorem runCalls_invariant {α β : Type} [DecidableEq α] (f : α → β)
    (xs : List α) :
    ∀ s : LruState α β,
      (cacheKeys s).Nodup →
      (∀ k v, lookupA s.cache k = some v → v = f k) →
      ((cacheKeys (runCalls f s xs)).Nodup ∧
       (∀ k, k ∈ cacheKeys (runCalls f s xs) ↔ k ∈ cacheKeys s ∨ k ∈ xs) ∧
       (∀ k v, lookupA (runCalls f s xs).cache k = some v → v = f k) ∧
       (runCalls f s xs).hits + (runCalls f s xs).misses
         = s.hits + s.misses + xs.length ∧
       (runCalls f s xs).misses + s.cache.length
         = s.misses + (runCalls f s xs).cache.length ∧
       (runCalls f s xs).runs + s.cache.length
         = s.runs + (runCalls f s xs).cache.length) := by
  induction xs with
  | nil =>
    intro s h1 h2
    refine ⟨h1, fun k => by simp [runCalls], h2, ?_, ?_, ?_⟩ <;>
      simp [runCalls]
  | cons x rest ih =>
    intro s h1 h2
    have hstep : runCalls f s (x :: rest) = runCalls f ((lruCall f s x).2) rest := rfl
    rw [hstep]
    cases hl : lookupA s.cache x with
    | some v =>
      have hx : x ∈ cacheKeys s := mem_of_lookupA_eq_some hl
      have hcall : (lruCall f s x).2 = { s with hits := s.hits + 1 } := by
        simp [lruCall, hl]
      rw [hcall]
      obtain ⟨a1, a2, a3, a4, a5, a6⟩ :=
        ih { s with hits := s.hits + 1 } h1 h2
      have e1 : ({ s with hits := s.hits + 1 } : LruState α β).hits = s.hits + 1 := rfl
      have e2 : ({ s with hits := s.hits + 1 } : LruState α β).misses = s.misses := rfl
      have e3 : ({ s with hits := s.hits + 1 } : LruState α β).runs = s.runs := rfl
      have e4 : ({ s with hits := s.hits + 1 } : LruState α β).cache = s.cache := rfl
      simp only [e1, e2, e3, e4] at a4 a5 a6
      refine ⟨a1, ?_, a3, ?_, ?_, ?_⟩
      · intro k
        rw [a2 k]
        simp only [List.mem_cons]
        constructor
        · rintro (hk | hk)
          · exact Or.inl hk
          · exact Or.inr (Or.inr hk)
        · rintro (hk | hk | hk)
          · exact Or.inl hk
          · exact Or.inl (hk ▸ hx)
          · exact Or.inr hk
      · simp only [List.length_cons]
        omega
      · exact a5
      · exact a6
    | none =>
      have hx : x ∉ cacheKeys s := by
        have h := (lookupA_eq_none_iff (l := s.cache) (k := x)).mp hl
        simpa [cacheKeys] using h
      have hcall : (lruCall f s x).2 =
          ⟨s.cache ++ [(x, f x)], s.hits, s.misses + 1, s.runs + 1⟩ := by
        simp [lruCall, hl]
      rw [hcall]
      have hkeys : cacheKeys (⟨s.cache ++ [(x, f x)], s.hits, s.misses + 1,
          s.runs + 1⟩ : LruState α β) = cacheKeys s ++ [x] := by
        simp [cacheKeys]
      have h1' : (cacheKeys (⟨s.cache ++ [(x, f x)], s.hits, s.misses + 1,
          s.runs + 1⟩ : LruState α β)).Nodup := by
        rw [hkeys]
        rw [List.nodup_append]
        exact ⟨h1, List.nodup_singleton x, by
          intro a ha hb
          rw [List.mem_singleton] at hb
          exact hx (hb ▸ ha)⟩
      have h2' : ∀ k v, lookupA (s.cache ++ [(x, f x)]) k = some v → v = f k := by
        intro k v hk
        rw [lookupA_append] at hk
        cases hc : lookupA s.cache k with
        | some w =>
          rw [hc] at hk
          exact h2 k v (by rw [hc, ← hk])
        | none =>
          rw [hc] at hk
          by_cases hxe : x = k
          · subst hxe
            simp [lookupA] at hk
            exact hk.symm
          · simp [lookupA, hxe] at hk
      obtain ⟨a1, a2, a3, a4, a5, a6⟩ :=
        ih ⟨s.cache ++ [(x, f x)], s.hits, s.misses + 1, s.runs + 1⟩ h1' h2'
      have e1 : (⟨s.cache ++ [(x, f x)], s.hits, s.misses + 1, s.runs + 1⟩ :
          LruState α β).hits = s.hits := rfl
      have e2 : (⟨s.cache ++ [(x, f x)], s.hits, s.misses + 1, s.runs + 1⟩ :
          LruState α β).misses = s.misses + 1 := rfl
      have e3 : (⟨s.cache ++ [(x, f x)], s.hits, s.misses + 1, s.runs + 1⟩ :
          LruState α β).runs = s.runs + 1 := rfl
      have e4 : (⟨s.cache ++ [(x, f x)], s.hits, s.misses + 1, s.runs + 1⟩ :
          LruState α β).cache = s.cache ++ [(x, f x)] := rfl
      simp only [e1, e2, e3, e4] at a4 a5 a6
      refine ⟨a1, ?_, a3, ?_, ?_, ?_⟩
      · intro k
        rw [a2 k, hkeys]
        simp only [List.mem_append, List.mem_singleton, List.mem_cons]
        tauto
      · simp only [List.length_cons] at a4 ⊢
        omega
      · simp only [List.length_append, List.length_singleton] at a5 ⊢
        omega
      · simp only [List.length_append, List.length_singleton] at a6 ⊢
        omega

/-- Specialization of the invariant to a fresh cache. -/
theorem runCalls_fresh_spec {α β : Type} [DecidableEq α] (f : α → β)
    (xs : List α) :
    (∀ k v, lookupA (runCalls f LruState.fresh xs).cache k = some v → v = f k) ∧
    (∀ k, k ∈ cacheKeys (runCalls f (LruState.fresh (α := α) (β := β)) xs) ↔ k ∈ xs) ∧
    (runCalls f LruState.fresh xs).hits + (runCalls f LruState.fresh xs).misses
      = xs.length ∧
    (runCalls f LruState.fresh xs).misses
      = (runCalls f LruState.fresh xs).cache.length ∧
    (runCalls f LruState.fresh xs).runs
      = (runCalls f LruState.fresh xs).cache.length ∧
    (cacheKeys (runCalls f (LruState.fresh (α := α) (β := β)) xs)).Nodup := by
  obtain ⟨a1, a2, a3, a4, a5, a6⟩ :=
    runCalls_invariant f xs LruState.fresh (by simp [cacheKeys, LruState.fresh])
      (by intro k v hk; simp [LruState.fresh, lookupA] at hk)
  refine ⟨a3, ?_, ?_, ?_, ?_, a1⟩
  · intro k
    rw [a2 k]
    simp [cacheKeys, LruState.fresh]
  · simpa [LruState.fresh] using a4
  · simpa [LruState.fresh] using a5
  · simpa [LruState.fresh] using a6

/-- On a fresh cache, the number of cached entries after a call sequence is
the number of distinct arguments in it. -/
theorem runCalls_cache_length {α β : Type} [DecidableEq α] (f : α → β)
    (xs : List α) :
    (runCalls f (LruState.fresh (α := α) (β := β)) xs).cache.length
      = xs.toFinset.card := by
  obtain ⟨-, hmem, -, -, -, hnd⟩ := runCalls_fresh_spec f xs
  have hset : (cacheKeys (runCalls f (LruState.fresh (α := α) (β := β)) xs)).toFinset
      = xs.toFinset := by
    apply Finset.ext
    intro a
    simp only [List.mem_toFinset]
    exact hmem a
  calc (runCalls f (LruState.fresh (α := α) (β := β)) xs).cache.length
      = (cacheKeys (runCalls f (LruState.fresh (α := α) (β := β)) xs)).length := by
        simp [cacheKeys]
    _ = (cacheKeys (runCalls f (LruState.fresh (α := α) (β := β)) xs)).toFinset.card :=
        (List.toFinset_card_of_nodup hnd).symm
    _ = xs.toFinset.card := by rw [hset]

/-- A call at any state reachable from a fresh cache returns the wrapped
function's value, whether it hits or misses. -/
theorem lruCall_fst_reachable {α β : Type} [DecidableEq α] (f : α → β)
    (xs : List α) (x : α) :
    (lruCall f (runCalls f LruState.fresh xs) x).1 = f x := by
  cases hl : lookupA (runCalls f LruState.fresh xs).cache x with
  | some v =>
    have hv := (runCalls_fresh_spec f xs).1 x v hl
    simp [lruCall, hl, hv]
  | none => simp [lruCall, hl]

/-! ## Lemmas about list splitting and the manual cache -/

theorem drop_pred_eq_getLast {α : Type} :
    ∀ (l : List α) (h : l ≠ []), l.drop (l.length - 1) = [l.getLast h]
  | [], h => absurd rfl h
  | [_], _ => rfl
  | a :: b :: m, _ => by
    have ih := drop_pred_eq_getLast (b :: m) (List.cons_ne_nil b m)
    calc (a :: b :: m).drop ((a :: b :: m).length - 1)
        = (b :: m).drop ((b :: m).length - 1) := by
          simp only [List.length_cons, Nat.add_sub_cancel, List.drop_succ_cons]
      _ = [(b :: m).getLast (List.cons_ne_nil b m)] := ih
      _ = [(a :: b :: m).getLast (List.cons_ne_nil a (b :: m))] := by
          rw [List.getLast_cons (List.cons_ne_nil b m)]

theorem take_one_eq_head {α : Type} :
    ∀ (l : List α) (h : l ≠ []), l.take 1 = [l.head h]
  | [], h => absurd rfl h
  | _ :: _, _ => by simp

/-- After at least one call, the manually cached instance holds the hard-coded
list and exactly one sleep has happened. -/
theorem manualAfter_succ (n : Nat) :
    manualAfter (n + 1) = (⟨some img_dims_value⟩, 1) := by
  induction n with
  | zero => rfl
  | succ k ih =>
    have hstep : manualAfter (k + 1 + 1)
        = ((get_img_dims_manual (manualAfter (k + 1)).1).2.1,
           (manualAfter (k + 1)).2
             + (if (get_img_dims_manual (manualAfter (k + 1)).1).2.2
                then 1 else 0)) := rfl
    rw [hstep, ih]
    rfl

/-! ## Claims -/

/-- C1: a memoized function returns the cached result on a previously seen
argument (the value stored at the first call, which is the wrapped function's
value) without re-running the computation, recomputes on an unseen argument,
and the wrapped computation runs exactly once per distinct argument since the
last clear. -/
theorem claim_C1_memoization_correct {α β : Type} [DecidableEq α]
    (f : α → β) (xs : List α) (x : α) (v : β)
    (h : lookupA (runCalls f LruState.fresh xs).cache x = some v) :
    (lruCall f (runCalls f LruState.fresh xs) x).1 = v ∧
    v = f x ∧
    (lruCall f (runCalls f LruState.fresh xs) x).2.runs
      = (runCalls f LruState.fresh xs).runs ∧
    (∀ y, lookupA (runCalls f LruState.fresh xs).cache y = Option.none →
      (lruCall f (runCalls f LruState.fresh xs) y).1 = f y ∧
      (lruCall f (runCalls f LruState.fresh xs) y).2.runs
        = (runCalls f LruState.fresh xs).runs + 1) ∧
    (runCalls f (LruState.fresh (α := α) (β := β)) xs).runs
      = xs.toFinset.card := by
  refine ⟨?_, ?_, ?_, ?_, ?_⟩
  · simp [lruCall, h]
  · exact (runCalls_fresh_spec f xs).1 x v h
  · simp [lruCall, h]
  · intro y hy
    refine ⟨?_, ?_⟩ <;> simp [lruCall, hy]
  · have h5 := (runCalls_fresh_spec f xs).2.2.2.2.1
    rw [h5, runCalls_cache_length]

/-- Witness for C1: after the notebook's calls with arguments 2, 2, 5, the
argument 2 is cached (with value `None`), and a further call returns the
cached value. -/
theorem claim_C1_memoization_correct_witness :
    (lruCall (invert_and_multiply sampleArr)
        (runCalls (invert_and_multiply sampleArr) LruState.fresh [2, 2, 5])
        2).1 = Option.none := by
  have h : lookupA (runCalls (invert_and_multiply sampleArr)
      LruState.fresh [2, 2, 5]).cache 2 = some Option.none := rfl
  exact (claim_C1_memoization_correct (invert_and_multiply sampleArr)
    [2, 2, 5] 2 Option.none h).1

/-- C2: `invert_and_multiply` computes `np.linalg.inv(arr_A) * coeff` but has
no `return` statement, so it returns `None` for every `coeff`, and `None` is
also what the cache stores and returns on hits. -/
theorem claim_C2_invert_and_multiply_returns_none
    (arr_A : Matrix (Fin arrDim) (Fin arrDim) ℚ) (coeff : ℤ) (xs : List ℤ) :
    invert_and_multiply arr_A coeff = Option.none ∧
    (lruCall (invert_and_multiply arr_A)
        (runCalls (invert_and_multiply arr_A) LruState.fresh xs) coeff).1
      = Option.none := by
  refine ⟨rfl, ?_⟩
  exact (lruCall_fst_reachable (invert_and_multiply arr_A) xs coeff).trans rfl

/-- C3: `cache_info()` reports hits = calls with an already-seen argument,
misses = first-time arguments, currsize = distinct arguments cached; in
particular `⟨1, 2, 128, 2⟩` after the notebook's calls 2, 2, 5. -/
theorem claim_C3_cache_info_counters :
    (∀ (α β : Type) [DecidableEq α] (f : α → β) (xs : List α),
      cache_info (runCalls f LruState.fresh xs)
        = ⟨xs.length - xs.toFinset.card, xs.toFinset.card,
           lru_default_maxsize, xs.toFinset.card⟩) ∧
    (∀ arr_A : Matrix (Fin arrDim) (Fin arrDim) ℚ,
      cache_info (runCalls (invert_and_multiply arr_A) LruState.fresh
        [2, 2, 5]) = ⟨1, 2, 128, 2⟩) := by
  constructor
  · intro α β inst f xs
    obtain ⟨-, -, h3, h4, h5, -⟩ := runCalls_fresh_spec f xs
    have hlen := runCalls_cache_length f xs
    simp only [cache_info, CacheInfo.mk.injEq]
    refine ⟨?_, ?_, ?_⟩
    · omega
    · omega
    · exact ⟨trivial, hlen⟩
  · intro arr_A
    rfl

/-- C4: after `cache_clear()`, a call behaves exactly like a first-ever call
on a fresh cache: same returned value (the freshly recomputed `f x`), same
resulting cache and counters, and the wrapped computation runs again even for
arguments cached before the clear. -/
theorem claim_C4_cache_clear_full_expiry {α β : Type} [DecidableEq α]
    (f : α → β) (s : LruState α β) (x : α) :
    (lruCall f (cache_clear s) x).1 = (lruCall f LruState.fresh x).1 ∧
    (lruCall f (cache_clear s) x).1 = f x ∧
    (lruCall f (cache_clear s) x).2.runs = s.runs + 1 ∧
    (lruCall f (cache_clear s) x).2.cache
      = (lruCall f LruState.fresh x).2.cache ∧
    (lruCall f (cache_clear s) x).2.hits
      = (lruCall f LruState.fresh x).2.hits ∧
    (lruCall f (cache_clear s) x).2.misses
      = (lruCall f LruState.fresh x).2.misses :=
  ⟨rfl, rfl, rfl, rfl, rfl, rfl⟩

/-- C5: all three versions of `get_img_dims` return the hard-coded list
`[(10, 20), (10, 20), (40, 40)]` on every call (after any number of earlier
calls), and `get_dim_counts` is therefore always the multiset with
`(10, 20)` twice and `(40, 40)` once. -/
theorem claim_C5_get_img_dims_agree :
    (∀ sleeps : Nat, (get_img_dims_uncached sleeps).1 = img_dims_value) ∧
    (∀ n : Nat, (get_img_dims_manual (manualAfter n).1).1 = img_dims_value) ∧
    (∀ n : Nat, (lruCall get_img_dims_lru_body
        (runCalls get_img_dims_lru_body LruState.fresh
          (List.replicate n ())) ()).1 = img_dims_value) ∧
    img_dims_value = [(10, 20), (10, 20), (40, 40)] ∧
    (get_dim_counts img_dims_value).count (10, 20) = 2 ∧
    (get_dim_counts img_dims_value).count (40, 40) = 1 ∧
    Multiset.card (get_dim_counts img_dims_value) = 3 := by
  refine ⟨fun _ => rfl, ?_, ?_, rfl, ?_, ?_, ?_⟩
  · intro n
    cases n with
    | zero => rfl
    | succ k => rw [manualAfter_succ]; rfl
  · intro n
    exact lruCall_fst_reachable get_img_dims_lru_body (List.replicate n ()) ()
  · decide
  · decide
  · decide

/-- C6: `*pre, last = s` on a sequence of length `n ≥ 1` binds `last` to the
final element and `pre` to the first `n - 1` elements; `first, *mid, last = s`
on a sequence of length `n ≥ 2` binds `first` to element 0, `last` to element
`n - 1`, and `mid` to elements 1 through `n - 2`. -/
theorem claim_C6_star_destructuring (α : Type) :
    (∀ (s : List α) (h : 1 ≤ s.length),
      starUnpack 0 1 s
        = some ([], s.take (s.length - 1),
            [s.getLast (List.length_pos.mp h)])) ∧
    (∀ (s : List α) (h : 2 ≤ s.length),
      starUnpack 1 1 s
        = some ([s.head (List.length_pos.mp (by omega))],
            (s.drop 1).take (s.length - 2),
            [s.getLast (List.length_pos.mp (by omega))])) := by
  constructor
  · intro s h
    have hne : s ≠ [] := List.length_pos.mp h
    simp only [starUnpack, Nat.zero_add, Nat.sub_zero, List.take_zero,
      List.drop_zero]
    rw [if_neg (by omega), drop_pred_eq_getLast s hne]
  · intro s h
    have hne : s ≠ [] := List.length_pos.mp (by omega)
    simp only [starUnpack]
    rw [if_neg (by omega), drop_pred_eq_getLast s hne, take_one_eq_head s hne,
      show s.length - 1 - 1 = s.length - 2 from by omega]

/-- Witness for C6: the notebook's `*all_but_last, last = [0, 1, 2, 3, 'last']`
and `frst, *mid, last = ['first', 0, 1, 2, 'last']`. -/
theorem claim_C6_star_destructuring_witness :
    starUnpack 0 1 allButLastItems
      = some ([], [PyLit.int 0, PyLit.int 1, PyLit.int 2, PyLit.int 3],
          [PyLit.str "last"]) ∧
    starUnpack 1 1 firstMidLastItems
      = some ([PyLit.str "first"], [PyLit.int 0, PyLit.int 1, PyLit.int 2],
          [PyLit.str "last"]) :=
  ⟨(claim_C6_star_destructuring PyLit).1 allButLastItems (by decide),
   (claim_C6_star_destructuring PyLit).2 firstMidLastItems (by decide)⟩

/-- C7: the loop `for x, y in train_set` over 3-element batches raises
`ValueError: too many values to unpack (expected 2)`; the repository's other
loops (the pair loop of the first cell and the starred loop) raise no error. -/
theorem claim_C7_arity_mismatch_error :
    forLoop2 train_set_triples
      = Except.error
          (PyError.valueError "too many values to unpack (expected 2)") ∧
    forLoop2 train_set_pairs
      = Except.ok [[[17/10], [2]], [[3/10], [4]]] ∧
    forLoopStar train_set_triples
      = Except.ok [[[17/10], [1], [2]], [[3/10], [3], [4]]] :=
  ⟨rfl, rfl, rfl⟩

/-- C8: binding a 3-tuple `(cont, idx, y)` with `*x, y` and then calling
`em(*x, y)` passes exactly the original three components in order, the same
as calling `em(cont, idx, y)` directly. -/
theorem claim_C8_star_roundtrip {α : Type} (cont idx y : α) :
    unpackStarLast [cont, idx, y] = Except.ok ([cont, idx], y) ∧
    callWithStar [cont, idx] y = callDirect cont idx y :=
  ⟨rfl, rfl⟩

/-- C9: the manually cached `ExtendedFolder` keeps `_img_dims` equal to `None`
or the non-empty (hence truthy) hard-coded list; the expensive computation
runs at most once per instance (`min n 1` sleeps after `n` calls); and every
call returns the stored list, which the call leaves in place. -/
theorem claim_C9_manual_cache_invariant :
    (∀ n : Nat, (manualAfter n).1.img_dims_field = Option.none ∨
      (manualAfter n).1.img_dims_field = some img_dims_value) ∧
    pyFalsy (some img_dims_value) = false ∧
    (∀ n : Nat, (manualAfter n).2 = min n 1) ∧
    (∀ n : Nat, (get_img_dims_manual (manualAfter n).1).1 = img_dims_value ∧
      (get_img_dims_manual (manualAfter n).1).2.1.img_dims_field
        = some img_dims_value) := by
  refine ⟨?_, rfl, ?_, ?_⟩
  · intro n
    cases n with
    | zero => exact Or.inl rfl
    | succ k => rw [manualAfter_succ]; exact Or.inr rfl
  · intro n
    cases n with
    | zero => rfl
    | succ k => rw [manualAfter_succ]; omega
  · intro n
    cases n with
    | zero => exact ⟨rfl, rfl⟩
    | succ k => rw [manualAfter_succ]; exact ⟨rfl, rfl⟩

/-- C10: extended unpacking works on any finite iterable: with `k ≥ 2` yielded
items, `first, *mid, last` binds `mid` to the middle `k - 2` items as a list
(as on the notebook's generator); and the lone starred target
`*everything, = it` binds the whole yield as a list, e.g. `[0, 1, 2, 3, 4]`
for `range(5)`. -/
theorem claim_C10_star_any_iterable (α : Type) :
    (∀ (g : List α) (h : 2 ≤ g.length),
      starUnpack 1 1 g
        = some ([g.head (List.length_pos.mp (by omega))],
            (g.drop 1).take (g.length - 2),
            [g.getLast (List.length_pos.mp (by omega))])) ∧
    (∀ l : List α, starUnpack 0 0 l = some ([], l, [])) ∧
    starUnpack 1 1 firstMidLastItems
      = some ([PyLit.str "first"], [PyLit.int 0, PyLit.int 1, PyLit.int 2],
          [PyLit.str "last"]) ∧
    starUnpack 0 0 (List.range 5) = some ([], [0, 1, 2, 3, 4], []) := by
  refine ⟨?_, ?_, by decide, by decide⟩
  · intro g h
    have hne : g ≠ [] := List.length_pos.mp (by omega)
    simp only [starUnpack]
    rw [if_neg (by omega), drop_pred_eq_getLast g hne, take_one_eq_head g hne,
      show g.length - 1 - 1 = g.length - 2 from by omega]
  · intro l
    simp [starUnpack]

/-- Witness for C10: the notebook's generator yielding
`'first', 0, 1, 2, 'last'`. -/
theorem claim_C10_star_any_iterable_witness :
    starUnpack 1 1 firstMidLastItems
      = some ([PyLit.str "first"], [PyLit.int 0, PyLit.int 1, PyLit.int 2],
          [PyLit.str "last"]) :=
  (claim_C10_star_any_iterable PyLit).1 firstMidLastItems (by decide)

end PythonShorts
